import Mathlib

set_option linter.unusedVariables false

/-!
Verification of the concurrent line-counting engine of yuukimiyo/go-lc
(src/main.go) against its natural-language specification.

Shallow embedding conventions:
* bytes are natural numbers; the delimiter byte is 10 (the byte value of
  the newline character);
* the target file is a `List Byte` (its content); `getFileSize` is the
  length of that list, and the top-level open/stat failure is modelled by
  passing `Except GoErr (List Byte)` to `getNumOfLines`;
* an `io.Reader` is modelled by the script of its successive `Read`
  results (`List ReadRes`): each `Read` call delivers a chunk of bytes
  (`data`, with `n = data.length`) together with an optional error, which
  is how Go's `Read` contract `(n int, err error)` behaves;
* an `os.File` opened on the target and seeked to an offset yields the
  script `fileScript`: a `Read` with a buffer of size `buffersize` at
  position `pos` returns the next `min buffersize (len - pos)` bytes with
  no error, and `(0, io.EOF)` at or past end of file (regular-file
  semantics; the spec's configuration contract guarantees
  `buffersize > 0`);
* Go's `int(math.Trunc(float64 a / float64 b))` is embedded as natural
  division `a / b`: for the sizes a file and buffer can take (below 2^53)
  the float64 quotient is exact enough that truncation coincides with
  integer division;
* the per-worker goroutine `countWorker` is embedded as a function from
  the worker's environment (open failure, seek failure, or success) to
  the list of values it emits on the counter channel, whether the
  deferred recovery path panicked, and how many `Read` calls it made;
* the spawn loop of `getNumOfLines` threads `byteOffset` exactly as the
  Go loop does, and the aggregation goroutine's sum is the sum of the
  emitted values (addition is commutative and associative, so the
  arrival order on the channel does not affect the modelled total).
-/

namespace GoLc

/-- A byte value (0..255); we only ever compare bytes for equality. -/
abbrev Byte := Nat

/-- The delimiter byte counted by the program: the newline byte (10). -/
def delimByte : Byte := 10

/-- Go error values the code distinguishes: io.EOF versus anything else. -/
inductive GoErr
  | eof
  | other
deriving DecidableEq

/-- Result of one `Read` call of an `io.Reader`: the bytes delivered
(`n = data.length`) and the accompanying error, if any. -/
structure ReadRes where
  data : List Byte
  err : Option GoErr
deriving DecidableEq

/-- Embedding of `bytes.IndexByte` (src/main.go line 214): index of the
first occurrence of `c` in `l`, `none` when absent (Go returns -1). -/
def indexByte (c : Byte) : List Byte → Option Nat
  | [] => none
  | x :: xs => if x = c then some 0 else (indexByte c xs).map (· + 1)

/-- The inner delimiter-counting loop of `getNumOfCharsOnIo`
(src/main.go lines 207-224): repeatedly find the next delimiter with a
forward byte search and resume one position past each match.  The loop
terminates because every iteration advances the offset by at least one;
the embedding makes that explicit with fuel bounded by the list length. -/
def countDelimsAux : Nat → List Byte → Nat
  | 0, _ => 0
  | fuel + 1, l =>
    match indexByte delimByte l with
    | none => 0
    | some i => 1 + countDelimsAux fuel (l.drop (i + 1))

/-- Delimiter count of one filled buffer region, as computed by the
forward-search loop of src/main.go lines 207-224. -/
def countDelims (l : List Byte) : Nat := countDelimsAux l.length l

/-- A trivial single-pass sequential scan of a byte sequence, counting
delimiter bytes one at a time (the spec's baseline from section 8). -/
def seqScan : List Byte → Nat
  | [] => 0
  | x :: xs => (if x = delimByte then 1 else 0) + seqScan xs

/-- Embedding of `getNumOfCharsOnIo` (src/main.go lines 187-228),
instrumented with the number of `Read` calls performed.  The reader is a
script of successive `Read` results; reading an exhausted script behaves
like a reader at end of input, `(0, io.EOF)`.  Result components:
delimiter count, returned error, `Read` calls performed.  For each of
`repeatCount` iterations the code first checks `n == 0` (return the
accumulated count with the read's own error), then `err != nil` (return
the accumulated count with that error, without scanning the delivered
bytes), and otherwise counts delimiters in the filled region and
continues. -/
def getNumOfCharsOnIoFull : List ReadRes → Nat → Nat × Option GoErr × Nat
  | _, 0 => (0, none, 0)
  | [], _ + 1 => (0, some GoErr.eof, 1)
  | r :: rs, j + 1 =>
    if r.data.length = 0 then (0, r.err, 1)
    else if r.err.isSome then (0, r.err, 1)
    else
      (countDelims r.data + (getNumOfCharsOnIoFull rs j).1,
        (getNumOfCharsOnIoFull rs j).2.1, (getNumOfCharsOnIoFull rs j).2.2 + 1)

/-- The (count, error) pair `getNumOfCharsOnIo` returns in the source. -/
def getNumOfCharsOnIo (script : List ReadRes) (repeatCount : Nat) : Nat × Option GoErr :=
  ((getNumOfCharsOnIoFull script repeatCount).1, (getNumOfCharsOnIoFull script repeatCount).2.1)

/-- One `Read` of an `os.File` whose content is `file`, at cursor
position `pos`, with a buffer of `buffersize` bytes: deliver the next
`min buffersize (file.length - pos)` bytes with no error, or `(0, io.EOF)`
at end of file (regular-file semantics). -/
def fileRead (file : List Byte) (pos buffersize : Nat) : ReadRes :=
  let d := (file.drop pos).take buffersize
  if d.isEmpty then ⟨[], some GoErr.eof⟩ else ⟨d, none⟩

/-- The script of `k` successive `Read` results of an `os.File` seeked to
`pos`; the cursor advances by the number of bytes each read delivered. -/
def fileScript (file : List Byte) (pos buffersize : Nat) : Nat → List ReadRes
  | 0 => []
  | k + 1 =>
    fileRead file pos buffersize ::
      fileScript file (pos + (fileRead file pos buffersize).data.length) buffersize k

/-- The environment one worker goroutine encounters: its `os.OpenFile`
call fails, its `Seek` call fails, or both succeed. -/
inductive WorkerEnv
  | openFail
  | seekFail
  | ok
deriving DecidableEq

/-- What one run of a worker produces: the values it sends on the counter
channel, whether it panicked, and how many `Read` calls it made. -/
structure WOut where
  emitted : List Nat
  panicked : Bool
  reads : Nat
deriving DecidableEq

/-- Embedding of `countWorker` (src/main.go lines 148-184).  The deferred
function sends `c` on the counter channel on every exit path, so an
open or seek failure still emits exactly one value, namely the initial
`c = 0`, after performing no read.  On success the worker scans its
segment; a non-nil error from the scan makes it panic (after `c` was
already assigned). -/
def countWorker (env : WorkerEnv) (file : List Byte) (erc boff buffersize : Nat) : WOut :=
  match env with
  | .openFail => ⟨[0], false, 0⟩
  | .seekFail => ⟨[0], false, 0⟩
  | .ok =>
    let r := getNumOfCharsOnIoFull (fileScript file boff buffersize erc) erc
    ⟨[r.1], r.2.1.isSome, r.2.2⟩

/-- Embedding of line 85-90 of src/main.go: `readCountTotal`, the number
of whole-buffer reads, incremented when a final short buffer remains. -/
def readCountTotal (fsize buffersize : Nat) : Nat :=
  let t := fsize / buffersize
  if fsize - t * buffersize > 0 then t + 1 else t

/-- Embedding of line 127 of src/main.go: reads assigned to segment `i`. -/
def eachReadCount (rct splitNum i : Nat) : Nat := (rct + i) / splitNum

/-- The byte offset at which segment `i` starts (the value the loop
variable `byteOffset` holds when worker `i` is spawned, lines 122-139). -/
def byteOffset (rct splitNum buffersize : Nat) : Nat → Nat
  | 0 => 0
  | i + 1 => byteOffset rct splitNum buffersize i + eachReadCount rct splitNum i * buffersize

/-- The per-segment descriptors (start offset, read-repeat count) the
spawn loop produces, in spawn order. -/
def segments (rct splitNum buffersize : Nat) : List (Nat × Nat) :=
  (List.range splitNum).map fun i =>
    (byteOffset rct splitNum buffersize i, eachReadCount rct splitNum i)

/-- The spawn loop of `getNumOfLines` (lines 125-140): spawn workers for
indices `i, i+1, ...` while `rem` iterations remain, threading the
running `byteOffset` exactly as the Go loop does. -/
def spawnFrom (env : Nat → WorkerEnv) (file : List Byte) (rct splitNum buffersize : Nat) :
    Nat → Nat → Nat → List WOut
  | _, _, 0 => []
  | i, off, rem + 1 =>
    countWorker (env i) file (eachReadCount rct splitNum i) off buffersize ::
      spawnFrom env file rct splitNum buffersize (i + 1)
        (off + eachReadCount rct splitNum i * buffersize) rem

/-- Everything one call of `getNumOfLines` does that the claims talk
about: the returned total and error, the planned segment descriptors,
the number of workers spawned, the number of `Read` calls performed, and
whether any worker panicked. -/
structure RunResult where
  total : Nat
  err : Option GoErr
  segs : List (Nat × Nat)
  workersStarted : Nat
  readsPerformed : Nat
  panicked : Bool
deriving DecidableEq

/-- Embedding of `getNumOfLines` (src/main.go lines 71-146).  The
argument `fileRes` is the outcome of `getFileSize`: on error the
function returns `(0, err)` before planning any segment, spawning any
worker or reading any byte.  Otherwise it plans the segments, runs one
worker per segment (`env` tells each worker whether its open/seek
succeeds), and returns the sum of the emitted partial counts with a nil
error (line 145 always returns `nil`).  `maxThreads` bounds concurrency
only; it cannot change any field of the result. -/
def getNumOfLines (env : Nat → WorkerEnv) (fileRes : Except GoErr (List Byte))
    (splitNum maxThreads buffersize : Nat) : RunResult :=
  match fileRes with
  | .error e => ⟨0, some e, [], 0, 0, false⟩
  | .ok file =>
    let rct := readCountTotal file.length buffersize
    let outs := spawnFrom env file rct splitNum buffersize 0 0 splitNum
    ⟨(outs.map fun w => w.emitted.sum).sum, none, segments rct splitNum buffersize,
      outs.length, (outs.map WOut.reads).sum, outs.any WOut.panicked⟩

/-- Total reads the planner hands to segments `i, i+1, ...` while `rem`
spawn-loop iterations remain. -/
def sumReads (rct s i rem : Nat) : Nat :=
  ((List.range' i rem).map fun k => eachReadCount rct s k).sum

/-- The delimiter count a worker with a healthy environment obtains for
segment `i` of the plan (what the overall total loses when that
segment's worker fails to open or seek). -/
def segDelims (file : List Byte) (rct s b i : Nat) : Nat :=
  (getNumOfCharsOnIoFull
    (fileScript file (byteOffset rct s b i) b (eachReadCount rct s i))
    (eachReadCount rct s i)).1

/-- Phases of one worker goroutine, in the order the source imposes on
each worker.  `running` covers open, seek and scan, with the slot
acquired and the file handle open.  The two deferred blocks of
`countWorker` run in reverse registration order on every exit path:
first `f.Close()` (registered last, lines 168), then the anonymous
function of lines 152-157, which sends on the counter channel, calls
`wg.Done()` and only then receives from `jc`, releasing the slot.  So a
slot is released only after the handle is closed and the result
emitted. -/
inductive WPhase
  | notStarted
  | running
  | closed
  | emitted
  | released
deriving DecidableEq

/-- Global state of `getNumOfLines`'s concurrency structure for
`s = splitNum` workers: the phase of each worker, how many workers the
main loop has spawned (`jc <- true; wg.Add(1); go countWorker` happen in
index order), the occupancy of the buffered channel `jc` (the counting
semaphore of capacity `maxThreads`), and whether the aggregation step
(`wg.Wait`; `close(counterCh)`; receive on `resultCh`) has yielded the
total. -/
structure PoolState (s : Nat) where
  phase : Fin s → WPhase
  nextIdx : Nat
  jcCount : Nat
  collected : Bool

/-- The state before the spawn loop starts. -/
def initState (s : Nat) : PoolState s :=
  ⟨fun _ => WPhase.notStarted, 0, 0, false⟩

/-- A worker in these phases holds a slot of the `jc` channel. -/
def isHeld : WPhase → Bool
  | WPhase.running => true
  | WPhase.closed => true
  | WPhase.emitted => true
  | _ => false

/-- A worker in this phase is actively scanning, with its file handle
and read buffer live. -/
def isRunning : WPhase → Bool
  | WPhase.running => true
  | _ => false

/-- Number of slot-holding workers. -/
def heldCard {s : Nat} (st : PoolState s) : Nat :=
  (Finset.univ.filter fun i => isHeld (st.phase i) = true).card

/-- Number of simultaneously executing segment scans. -/
def runningCard {s : Nat} (st : PoolState s) : Nat :=
  (Finset.univ.filter fun i => isRunning (st.phase i) = true).card

/-- Interleaving semantics of the pool (lines 93-145 and 148-184 of
src/main.go).  `spawn` is the main loop body: it blocks until the
buffered channel `jc` has room (`jcCount < maxT`), then starts the next
worker.  Each worker closes its handle, then emits its result, then
releases its slot, in that order (the defer order of the source).  The
aggregation step (`finish`) can only fire after the main loop is done
and every worker has called `wg.Done()`, which happens after its emit. -/
inductive PoolStep (s maxT : Nat) : PoolState s → PoolState s → Prop
  | spawn (st : PoolState s) (h : st.nextIdx < s)
      (hph : st.phase ⟨st.nextIdx, h⟩ = WPhase.notStarted)
      (hjc : st.jcCount < maxT) :
      PoolStep s maxT st
        ⟨Function.update st.phase ⟨st.nextIdx, h⟩ WPhase.running,
          st.nextIdx + 1, st.jcCount + 1, st.collected⟩
  | closeFile (st : PoolState s) (i : Fin s) (h : st.phase i = WPhase.running) :
      PoolStep s maxT st
        ⟨Function.update st.phase i WPhase.closed, st.nextIdx, st.jcCount, st.collected⟩
  | emit (st : PoolState s) (i : Fin s) (h : st.phase i = WPhase.closed) :
      PoolStep s maxT st
        ⟨Function.update st.phase i WPhase.emitted, st.nextIdx, st.jcCount, st.collected⟩
  | release (st : PoolState s) (i : Fin s) (h : st.phase i = WPhase.emitted) :
      PoolStep s maxT st
        ⟨Function.update st.phase i WPhase.released, st.nextIdx, st.jcCount - 1,
          st.collected⟩
  | finish (st : PoolState s)
      (hall : ∀ i, st.phase i = WPhase.emitted ∨ st.phase i = WPhase.released)
      (hdone : st.nextIdx = s) :
      PoolStep s maxT st ⟨st.phase, st.nextIdx, st.jcCount, true⟩

/-- States reachable from the initial state by interleaved steps. -/
inductive PoolReach (s maxT : Nat) : PoolState s → Prop
  | init : PoolReach s maxT (initState s)
  | step {st st' : PoolState s} :
      PoolReach s maxT st → PoolStep s maxT st st' → PoolReach s maxT st'

/-- The inductive invariant: `jc` occupancy equals the number of
slot-holding workers, never exceeds the capacity, and once the total has
been collected every worker has emitted. -/
def PoolInv (s maxT : Nat) (st : PoolState s) : Prop :=
  heldCard st = st.jcCount ∧ st.jcCount ≤ maxT
    ∧ (st.collected = true →
        ∀ i, st.phase i = WPhase.emitted ∨ st.phase i = WPhase.released)

theorem indexByte_none {c : Byte} : ∀ {l : List Byte}, indexByte c l = none → l.count c = 0
  | [], _ => rfl
  | x :: xs, h => by
    simp only [indexByte] at h
    by_cases hx : x = c
    · rw [if_pos hx] at h
      exact absurd h (by simp)
    · rw [if_neg hx] at h
      cases hidx : indexByte c xs with
      | none => simp [List.count_cons, hx, indexByte_none hidx]
      | some j => rw [hidx] at h; simp at h

theorem indexByte_some_count {c : Byte} :
    ∀ {l : List Byte} {i : Nat}, indexByte c l = some i →
      l.count c = (l.drop (i + 1)).count c + 1
  | [], i, h => by simp [indexByte] at h
  | x :: xs, i, h => by
    simp only [indexByte] at h
    by_cases hx : x = c
    · rw [if_pos hx] at h
      cases h
      simp [List.count_cons, hx]
    · rw [if_neg hx] at h
      cases hidx : indexByte c xs with
      | none => rw [hidx] at h; simp at h
      | some j =>
        rw [hidx] at h
        simp only [Option.map] at h
        cases h
        simp [List.count_cons, hx, indexByte_some_count hidx]

theorem indexByte_some_lt {c : Byte} :
    ∀ {l : List Byte} {i : Nat}, indexByte c l = some i → i < l.length
  | [], i, h => by simp [indexByte] at h
  | x :: xs, i, h => by
    simp only [indexByte] at h
    by_cases hx : x = c
    · rw [if_pos hx] at h
      cases h
      simp
    · rw [if_neg hx] at h
      cases hidx : indexByte c xs with
      | none => rw [hidx] at h; simp at h
      | some j =>
        rw [hidx] at h
        simp only [Option.map] at h
        cases h
        simpa using indexByte_some_lt hidx

theorem countDelimsAux_eq_count :
    ∀ (fuel : Nat) (l : List Byte), l.length ≤ fuel →
      countDelimsAux fuel l = l.count delimByte
  | 0, l, h => by
    have : l = [] := List.eq_nil_of_length_eq_zero (Nat.le_zero.mp h)
    simp [this, countDelimsAux]
  | fuel + 1, l, h => by
    rw [countDelimsAux]
    split
    · next hidx => exact (indexByte_none hidx).symm
    · next i hidx =>
      have hlt : i < l.length := indexByte_some_lt hidx
      have hdrop : (l.drop (i + 1)).length ≤ fuel := by
        rw [List.length_drop]
        omega
      rw [countDelimsAux_eq_count fuel _ hdrop, indexByte_some_count hidx]
      omega

theorem countDelims_eq_count (l : List Byte) : countDelims l = l.count delimByte :=
  countDelimsAux_eq_count l.length l (Nat.le_refl _)

theorem seqScan_eq_count : ∀ l : List Byte, seqScan l = l.count delimByte
  | [] => rfl
  | x :: xs => by
    simp only [seqScan, List.count_cons, seqScan_eq_count xs]
    by_cases hx : x = delimByte
    · simp [hx]
      omega
    · simp [hx]

theorem sum_range_div (T s : Nat) (hs : 0 < s) :
    (∑ i in Finset.range s, (T + i) / s) = T := by
  induction T with
  | zero =>
    apply Finset.sum_eq_zero
    intro i hi
    exact Nat.div_eq_of_lt (by simpa using Finset.mem_range.mp hi)
  | succ T ih =>
    have key : (∑ i in Finset.range s, (T + (i + 1)) / s) + (T + 0) / s
        = (∑ i in Finset.range s, (T + i) / s) + (T + s) / s := by
      rw [← Finset.sum_range_succ' (fun i => (T + i) / s) s,
        ← Finset.sum_range_succ (fun i => (T + i) / s) s]
    have hshift : (∑ i in Finset.range s, (T + (i + 1)) / s)
        = ∑ i in Finset.range s, (T + 1 + i) / s := by
      apply Finset.sum_congr rfl
      intro i _
      rw [show T + (i + 1) = T + 1 + i by omega]
    have hTs : (T + s) / s = T / s + 1 := Nat.add_div_right T hs
    rw [hshift, hTs, ih] at key
    simp only [Nat.add_zero] at key
    omega

theorem list_range_map_sum (f : Nat → Nat) :
    ∀ n : Nat, ((List.range n).map f).sum = ∑ i in Finset.range n, f i
  | 0 => rfl
  | n + 1 => by
    rw [List.range_succ, List.map_append, List.sum_append,
      Finset.sum_range_succ, list_range_map_sum f n]
    simp

theorem sumReads_zero (rct s i : Nat) : sumReads rct s i 0 = 0 := rfl

theorem sumReads_succ (rct s i rem : Nat) :
    sumReads rct s i (rem + 1) = eachReadCount rct s i + sumReads rct s (i + 1) rem := by
  simp [sumReads, List.range'_succ]

theorem sumReads_all (rct s : Nat) (hs : 0 < s) : sumReads rct s 0 s = rct := by
  rw [sumReads, ← List.range_eq_range', list_range_map_sum]
  exact sum_range_div rct s hs

theorem count_take_chunk (l : List Byte) (o a c : Nat) :
    ((l.drop o).take (a + c)).count delimByte
      = ((l.drop o).take a).count delimByte + ((l.drop (o + a)).take c).count delimByte := by
  rw [List.take_add, List.count_append, List.drop_drop]

theorem fileRead_inside (file : List Byte) (b off : Nat) (hb : 0 < b)
    (hoff : off < file.length) :
    fileRead file off b = ⟨(file.drop off).take b, none⟩ := by
  rw [fileRead]
  apply if_neg
  simp only [List.isEmpty_iff]
  intro hnil
  have hlen := congrArg List.length hnil
  rw [List.length_take, List.length_drop] at hlen
  simp only [List.length_nil] at hlen
  omega

theorem take_len_inside (file : List Byte) (b off : Nat) (hoff : off < file.length) :
    ((file.drop off).take b).length = min b (file.length - off) := by
  rw [List.length_take, List.length_drop]

/-- A worker whose planned reads all start inside the file scans exactly
its planned byte range, performs exactly its planned number of reads,
and sees no error: the `j`-th read starts at `off + j * b`, is full for
every read but possibly the last, and the last one starts before end of
file, so no read ever returns zero bytes. -/
theorem scanFile_ok (file : List Byte) (b : Nat) (hb : 0 < b) :
    ∀ (n off : Nat), (n = 0 ∨ off + (n - 1) * b < file.length) →
      getNumOfCharsOnIoFull (fileScript file off b n) n
        = (((file.drop off).take (n * b)).count delimByte, none, n)
  | 0, off, _ => by simp [fileScript, getNumOfCharsOnIoFull]
  | m + 1, off, hcov => by
    have hoff : off < file.length := by
      rcases hcov with h | h
      · omega
      · have : off ≤ off + (m + 1 - 1) * b := Nat.le_add_right _ _
        omega
    have hlen0 : ¬((file.drop off).take b).length = 0 := by
      rw [take_len_inside file b off hoff]
      omega
    cases m with
    | zero =>
      rw [fileScript, fileRead_inside file b off hb hoff]
      rw [getNumOfCharsOnIoFull]
      simp only [hlen0, if_false, Option.isSome_none, Bool.false_eq_true, if_false]
      simp [getNumOfCharsOnIoFull, countDelims_eq_count, Nat.one_mul]
    | succ m' =>
      have hfull : ((file.drop off).take b).length = b := by
        rw [take_len_inside file b off hoff]
        rcases hcov with h | h
        · omega
        · have hble : 1 * b ≤ (m' + 1) * b := Nat.mul_le_mul_right b (by omega)
          simp only [Nat.add_sub_cancel] at h
          omega
      rw [fileScript, fileRead_inside file b off hb hoff]
      dsimp only
      rw [hfull]
      rw [getNumOfCharsOnIoFull]
      simp only [hlen0, if_false, Option.isSome_none, Bool.false_eq_true, if_false]
      have hrec := scanFile_ok file b hb (m' + 1) (off + b)
        (by
          right
          simp only [Nat.add_sub_cancel] at hcov ⊢
          rcases hcov with h | h
          · omega
          · have : b + m' * b = (m' + 1) * b := by ring
            omega)
      rw [hrec]
      simp only [Prod.mk.injEq, and_true, true_and]
      rw [countDelims_eq_count]
      have hsplit : (m' + 1 + 1) * b = b + (m' + 1) * b := by ring
      rw [hsplit, count_take_chunk file off b ((m' + 1) * b)]

/-- With the file opening and seeking normally for every worker, the
spawn loop starting at index `i` and offset `off` produces workers whose
emitted counts sum to the delimiter count of the contiguous planned byte
range, whose reads sum to the planned number of reads, and none of which
panics — provided every planned read starts inside the file. -/
theorem spawnFrom_ok (file : List Byte) (rct s b : Nat) (hb : 0 < b) :
    ∀ (rem i off : Nat),
      (sumReads rct s i rem = 0 ∨ off + (sumReads rct s i rem - 1) * b < file.length) →
      (((spawnFrom (fun _ => WorkerEnv.ok) file rct s b i off rem).map
          fun w => w.emitted.sum).sum
          = ((file.drop off).take (sumReads rct s i rem * b)).count delimByte)
      ∧ (((spawnFrom (fun _ => WorkerEnv.ok) file rct s b i off rem).map WOut.reads).sum
          = sumReads rct s i rem)
      ∧ ((spawnFrom (fun _ => WorkerEnv.ok) file rct s b i off rem).any WOut.panicked
          = false)
  | 0, i, off, _ => by simp [spawnFrom, sumReads_zero]
  | rem + 1, i, off, hcov => by
    rw [sumReads_succ] at hcov
    have hn0 : eachReadCount rct s i = 0 ∨
        off + (eachReadCount rct s i - 1) * b < file.length := by
      rcases hcov with h | h
      · left; omega
      · rcases Nat.eq_zero_or_pos (eachReadCount rct s i) with h0 | h0
        · left; exact h0
        · right
          have hle : (eachReadCount rct s i - 1) * b
              ≤ (eachReadCount rct s i + sumReads rct s (i + 1) rem - 1) * b :=
            Nat.mul_le_mul_right b (by omega)
          omega
    have hhead := scanFile_ok file b hb (eachReadCount rct s i) off hn0
    have htail : sumReads rct s (i + 1) rem = 0 ∨
        (off + eachReadCount rct s i * b) + (sumReads rct s (i + 1) rem - 1) * b
          < file.length := by
      rcases Nat.eq_zero_or_pos (sumReads rct s (i + 1) rem) with h0 | h0
      · left; exact h0
      · right
        rcases hcov with h | h
        · omega
        · have hexp : eachReadCount rct s i * b + (sumReads rct s (i + 1) rem - 1) * b
              = (eachReadCount rct s i + sumReads rct s (i + 1) rem - 1) * b := by
            rw [← Nat.add_mul]
            congr 1
            omega
          omega
    have hrec := spawnFrom_ok file rct s b hb rem (i + 1)
      (off + eachReadCount rct s i * b) htail
    rw [spawnFrom]
    simp only [List.map_cons, List.sum_cons, List.any_cons]
    rw [sumReads_succ]
    refine ⟨?_, ?_, ?_⟩
    · rw [hrec.1]
      have : countWorker WorkerEnv.ok file (eachReadCount rct s i) off b
          = ⟨[(((file.drop off).take (eachReadCount rct s i * b)).count delimByte)],
              false, eachReadCount rct s i⟩ := by
        rw [countWorker]
        simp only [hhead, Option.isSome_none]
      rw [this]
      simp only [List.sum_cons, List.sum_nil, Nat.add_zero]
      rw [Nat.add_mul, count_take_chunk file off (eachReadCount rct s i * b)
        (sumReads rct s (i + 1) rem * b)]
    · rw [hrec.2.1]
      have : countWorker WorkerEnv.ok file (eachReadCount rct s i) off b
          = ⟨[(((file.drop off).take (eachReadCount rct s i * b)).count delimByte)],
              false, eachReadCount rct s i⟩ := by
        rw [countWorker]
        simp only [hhead, Option.isSome_none]
      rw [this]
    · rw [hrec.2.2]
      have : countWorker WorkerEnv.ok file (eachReadCount rct s i) off b
          = ⟨[(((file.drop off).take (eachReadCount rct s i * b)).count delimByte)],
              false, eachReadCount rct s i⟩ := by
        rw [countWorker]
        simp only [hhead, Option.isSome_none]
      rw [this]
      simp

/-- The total number of planned reads covers the file: the planned byte
range `readCountTotal * buffersize` is at least the file size. -/
theorem len_le_rct_mul (len b : Nat) (hb : 0 < b) :
    len ≤ readCountTotal len b * b := by
  have hdm : len / b * b + len % b = len := Nat.div_add_mod' len b
  rw [readCountTotal]
  have hsub : len - len / b * b = len % b := by omega
  by_cases hr : len - len / b * b > 0
  · rw [if_pos hr]
    have hmod : len % b < b := Nat.mod_lt len hb
    have hexp : (len / b + 1) * b = len / b * b + b := by ring
    omega
  · rw [if_neg hr]
    omega

/-- When any read is planned at all, the last planned read starts
strictly before the end of the file. -/
theorem rct_cover (len b : Nat) (hb : 0 < b) :
    readCountTotal len b = 0 ∨ (readCountTotal len b - 1) * b < len := by
  have hdm : len / b * b + len % b = len := Nat.div_add_mod' len b
  rw [readCountTotal]
  have hsub : len - len / b * b = len % b := by omega
  by_cases hr : len - len / b * b > 0
  · rw [if_pos hr]
    right
    simp only [Nat.add_sub_cancel]
    omega
  · rw [if_neg hr]
    rcases Nat.eq_zero_or_pos (len / b) with h0 | h0
    · left; exact h0
    · right
      have hstep : (len / b - 1) * b + b = len / b * b := by
        obtain ⟨q, hq⟩ : ∃ q, len / b = q + 1 := ⟨len / b - 1, by omega⟩
        rw [hq]
        simp only [Nat.add_sub_cancel]
        ring
      omega

/-- The healthy-run total of `getNumOfLines` is the delimiter count of
the whole file; no panic occurs and no error is returned. -/
theorem getNumOfLines_ok (file : List Byte) (s t b : Nat) (hs : 0 < s) (hb : 0 < b) :
    (getNumOfLines (fun _ => WorkerEnv.ok) (Except.ok file) s t b).total
        = file.count delimByte
      ∧ (getNumOfLines (fun _ => WorkerEnv.ok) (Except.ok file) s t b).panicked = false
      ∧ (getNumOfLines (fun _ => WorkerEnv.ok) (Except.ok file) s t b).err = none := by
  have hsum := sumReads_all (readCountTotal file.length b) s hs
  have hcov : sumReads (readCountTotal file.length b) s 0 s = 0
      ∨ 0 + (sumReads (readCountTotal file.length b) s 0 s - 1) * b < file.length := by
    rw [hsum, Nat.zero_add]
    exact rct_cover file.length b hb
  have h := spawnFrom_ok file (readCountTotal file.length b) s b hb s 0 0 hcov
  rw [hsum] at h
  rw [getNumOfLines]
  refine ⟨?_, ?_, rfl⟩
  · show (((spawnFrom (fun _ => WorkerEnv.ok) file (readCountTotal file.length b) s b 0 0 s).map
        fun w => w.emitted.sum).sum) = file.count delimByte
    rw [h.1]
    rw [List.drop_zero, List.take_of_length_le (len_le_rct_mul file.length b hb)]
  · exact h.2.2

theorem rct_eq_ceil (len b : Nat) (hb : 0 < b) :
    readCountTotal len b = (len + b - 1) / b := by
  obtain ⟨q, r, hqr, hr⟩ : ∃ q r, len = q * b + r ∧ r < b :=
    ⟨len / b, len % b, by have := Nat.div_add_mod' len b; omega, Nat.mod_lt len hb⟩
  subst hqr
  have hdiv : (q * b + r) / b = q := by
    rw [mul_comm, Nat.mul_add_div hb, Nat.div_eq_of_lt hr]
    omega
  rw [readCountTotal]
  simp only [hdiv]
  have hsub : q * b + r - q * b = r := by omega
  rw [hsub]
  by_cases hrpos : r > 0
  · rw [if_pos hrpos]
    have hb1 : q * b + r + b - 1 = (r - 1) + b * (q + 1) := by
      have hexp : b * (q + 1) = q * b + b := by ring
      omega
    rw [hb1, Nat.add_mul_div_left _ _ hb, Nat.div_eq_of_lt (by omega)]
    omega
  · rw [if_neg hrpos]
    have hb1 : q * b + r + b - 1 = (b - 1) + b * q := by
      have hexp : b * q = q * b := by ring
      omega
    rw [hb1, Nat.add_mul_div_left _ _ hb, Nat.div_eq_of_lt (by omega)]
    omega

theorem sumReads_concat (rct s i : Nat) :
    ∀ m, sumReads rct s i (m + 1) = sumReads rct s i m + eachReadCount rct s (i + m) := by
  intro m
  rw [sumReads, sumReads, List.range'_concat]
  simp

theorem byteOffset_eq_sum (rct s b : Nat) :
    ∀ i, byteOffset rct s b i = sumReads rct s 0 i * b
  | 0 => by simp [byteOffset, sumReads_zero]
  | i + 1 => by
    rw [byteOffset, byteOffset_eq_sum rct s b i, sumReads_concat rct s 0 i]
    simp only [Nat.zero_add]
    ring

theorem byteOffset_mono (rct s b : Nat) :
    ∀ i j, i ≤ j → byteOffset rct s b i ≤ byteOffset rct s b j := by
  intro i j hij
  refine monotone_nat_of_le_succ (fun n => ?_) hij
  rw [byteOffset]
  exact Nat.le_add_right _ _

/-- C1: for every file content and all valid parameters, the total of
`getNumOfLines` equals the number of delimiter bytes found by a trivial
single-pass sequential scan of the file, and therefore does not depend
on the segment count or the concurrency bound. -/
theorem c1_total_eq_sequential_scan (file : List Byte) (s1 t1 s2 t2 b : Nat)
    (hs1 : 1 ≤ s1) (ht1 : 1 ≤ t1) (hs2 : 1 ≤ s2) (ht2 : 1 ≤ t2) (hb : 0 < b) :
    (getNumOfLines (fun _ => WorkerEnv.ok) (Except.ok file) s1 t1 b).total = seqScan file
      ∧ (getNumOfLines (fun _ => WorkerEnv.ok) (Except.ok file) s1 t1 b).total
          = (getNumOfLines (fun _ => WorkerEnv.ok) (Except.ok file) s2 t2 b).total := by
  have h1 := getNumOfLines_ok file s1 t1 b hs1 hb
  have h2 := getNumOfLines_ok file s2 t2 b hs2 hb
  exact ⟨by rw [h1.1, seqScan_eq_count], by rw [h1.1, h2.1]⟩

/-- Witness for C1 at the spec's concrete scenario: the bytes of
"a\nb\nc\n" scanned with one segment and again with four segments, both
with buffer size 2, give the sequential-scan count 3. -/
theorem c1_total_eq_sequential_scan_witness :
    (1 ≤ 1 ∧ 1 ≤ 4 ∧ 1 ≤ 2 ∧ 0 < 2)
      ∧ ((getNumOfLines (fun _ => WorkerEnv.ok) (Except.ok [97, 10, 98, 10, 99, 10]) 1 1 2).total
            = seqScan [97, 10, 98, 10, 99, 10]
          ∧ (getNumOfLines (fun _ => WorkerEnv.ok) (Except.ok [97, 10, 98, 10, 99, 10]) 1 1 2).total
            = (getNumOfLines (fun _ => WorkerEnv.ok) (Except.ok [97, 10, 98, 10, 99, 10]) 4 2 2).total) :=
  ⟨by decide,
    c1_total_eq_sequential_scan [97, 10, 98, 10, 99, 10] 1 1 4 2 2
      (by decide) (by decide) (by decide) (by decide) (by decide)⟩

/-- C2: segment `i` is assigned exactly `(totalReads + i) / segmentCount`
reads; the per-segment read counts are non-decreasing in `i`, differ by
at most one, and sum to exactly `totalReads`. -/
theorem c2_reads_distribution (T s : Nat) (hs : 1 ≤ s) :
    (∀ i, eachReadCount T s i = (T + i) / s)
      ∧ (∀ i j, i ≤ j → j < s → eachReadCount T s i ≤ eachReadCount T s j)
      ∧ (∀ i j, i < s → j < s → eachReadCount T s j ≤ eachReadCount T s i + 1)
      ∧ ((List.range s).map (eachReadCount T s)).sum = T := by
  refine ⟨fun i => rfl, ?_, ?_, ?_⟩
  · intro i j hij hj
    exact Nat.div_le_div_right (by omega)
  · intro i j hi hj
    calc eachReadCount T s j = (T + j) / s := rfl
      _ ≤ (T + i + s) / s := Nat.div_le_div_right (by omega)
      _ = (T + i) / s + 1 := Nat.add_div_right _ hs
      _ = eachReadCount T s i + 1 := rfl
  · rw [list_range_map_sum]
    simp only [eachReadCount]
    exact sum_range_div T s hs

/-- Witness for C2 at `totalReads = 7`, `segmentCount = 3`: the segment
read counts are 2, 2, 3 — non-decreasing, within one of each other, and
summing to 7. -/
theorem c2_reads_distribution_witness :
    (1 ≤ 3)
      ∧ eachReadCount 7 3 1 = (7 + 1) / 3
      ∧ eachReadCount 7 3 0 ≤ eachReadCount 7 3 2
      ∧ eachReadCount 7 3 2 ≤ eachReadCount 7 3 0 + 1
      ∧ ((List.range 3).map (eachReadCount 7 3)).sum = 7 :=
  ⟨by decide,
    (c2_reads_distribution 7 3 (by decide)).1 1,
    (c2_reads_distribution 7 3 (by decide)).2.1 0 2 (by decide) (by decide),
    (c2_reads_distribution 7 3 (by decide)).2.2.1 0 2 (by decide) (by decide),
    (c2_reads_distribution 7 3 (by decide)).2.2.2⟩

/-- C3: `totalReads` is the ceiling of `fileSize / bufferSize`; the
segment start offsets begin at 0, advance by the segment's planned byte
count, are monotonically non-decreasing, and the planned ranges tile
`[0, totalReads * bufferSize)` exactly (the offset after the last
segment is `totalReads * bufferSize`, each segment occupying the
contiguous range between its offset and the next). -/
theorem c3_planner_offsets_tile (fsize b s : Nat) (hb : 0 < b) (hs : 1 ≤ s) :
    readCountTotal fsize b = (fsize + b - 1) / b
      ∧ byteOffset (readCountTotal fsize b) s b 0 = 0
      ∧ (∀ i, byteOffset (readCountTotal fsize b) s b (i + 1)
            = byteOffset (readCountTotal fsize b) s b i
              + eachReadCount (readCountTotal fsize b) s i * b)
      ∧ (∀ i j, i ≤ j → byteOffset (readCountTotal fsize b) s b i
            ≤ byteOffset (readCountTotal fsize b) s b j)
      ∧ byteOffset (readCountTotal fsize b) s b s = readCountTotal fsize b * b := by
  refine ⟨rct_eq_ceil fsize b hb, rfl, fun i => rfl, byteOffset_mono _ _ _, ?_⟩
  rw [byteOffset_eq_sum, sumReads_all _ s hs]

/-- Witness for C3 at `fsize = 5`, `b = 2`, `s = 2`: three total reads,
offsets 0 and 2, final offset `3 * 2 = 6`. -/
theorem c3_planner_offsets_tile_witness :
    (0 < 2 ∧ 1 ≤ 2)
      ∧ readCountTotal 5 2 = (5 + 2 - 1) / 2
      ∧ byteOffset (readCountTotal 5 2) 2 2 0 = 0
      ∧ byteOffset (readCountTotal 5 2) 2 2 1
          = byteOffset (readCountTotal 5 2) 2 2 0 + eachReadCount (readCountTotal 5 2) 2 0 * 2
      ∧ byteOffset (readCountTotal 5 2) 2 2 1 ≤ byteOffset (readCountTotal 5 2) 2 2 2
      ∧ byteOffset (readCountTotal 5 2) 2 2 2 = readCountTotal 5 2 * 2 :=
  ⟨by decide,
    (c3_planner_offsets_tile 5 2 2 (by decide) (by decide)).1,
    (c3_planner_offsets_tile 5 2 2 (by decide) (by decide)).2.1,
    (c3_planner_offsets_tile 5 2 2 (by decide) (by decide)).2.2.1 0,
    (c3_planner_offsets_tile 5 2 2 (by decide) (by decide)).2.2.2.1 1 2 (by decide),
    (c3_planner_offsets_tile 5 2 2 (by decide) (by decide)).2.2.2.2⟩

/-- Stepping lemma for the scanner: after `j` normal iterations (each
read delivered at least one byte with no error), the scan has counted
exactly the delimiters of the first `j` delivered chunks, performed `j`
reads, and continues on the rest of the script. -/
theorem scanNormalSteps :
    ∀ (j : Nat) (script : List ReadRes) (rc : Nat), j ≤ rc →
      (∀ k, k < j → ∃ r, script.get? k = some r ∧ r.data ≠ [] ∧ r.err = none) →
      getNumOfCharsOnIoFull script rc
        = (((script.take j).map ReadRes.data).flatten.count delimByte
            + (getNumOfCharsOnIoFull (script.drop j) (rc - j)).1,
          (getNumOfCharsOnIoFull (script.drop j) (rc - j)).2.1,
          (getNumOfCharsOnIoFull (script.drop j) (rc - j)).2.2 + j)
  | 0, script, rc, _, _ => by simp
  | j + 1, script, rc, hj, hpre => by
    obtain ⟨r, hr0, hrd, hre⟩ := hpre 0 (Nat.succ_pos j)
    match script, rc, hj with
    | [], _, _ => simp at hr0
    | r0 :: rs, rc' + 1, hj =>
      have hr0r : r0 = r := by simpa using hr0
      subst hr0r
      have hlen : ¬r0.data.length = 0 := by
        simpa [List.length_eq_zero] using hrd
      have herr : r0.err.isSome = false := by
        rw [hre]
        rfl
      rw [getNumOfCharsOnIoFull]
      simp only [hlen, if_false, herr, Bool.false_eq_true]
      have hrec := scanNormalSteps j rs rc' (by omega)
        (fun k hk => by
          have h := hpre (k + 1) (by omega)
          simpa using h)
      rw [hrec]
      simp only [List.take_succ_cons, List.map_cons, List.flatten_cons, List.count_append,
        List.drop_succ_cons, Nat.succ_sub_succ, Prod.mk.injEq]
      exact ⟨by rw [countDelims_eq_count]; omega, trivial, by omega⟩

theorem join_take_length (b : Nat) :
    ∀ (rc : Nat) (script : List ReadRes),
      (∀ k, k < rc → ∃ r, script.get? k = some r ∧ r.data.length = b) →
      (((script.take rc).map ReadRes.data).flatten).length = rc * b
  | 0, script, _ => by simp
  | rc + 1, script, h => by
    obtain ⟨r, hr0, hrb⟩ := h 0 (Nat.succ_pos rc)
    match script, hr0 with
    | [], hr0 => simp at hr0
    | r0 :: rs, hr0 =>
      have hr0r : r0 = r := by simpa using hr0
      subst hr0r
      have hrec := join_take_length b rc rs
        (fun k hk => by
          have hx := h (k + 1) (by omega)
          simpa using hx)
      simp only [List.take_succ_cons, List.map_cons, List.flatten_cons, List.length_append,
        hrec, hrb]
      ring

/-- C4: when the first `repeatCount` reads each fill the whole buffer and
report no error, the scan returns exactly the number of delimiter bytes
among the `repeatCount * bufferSize` delivered bytes (counted by the
forward search, each occurrence once), performs exactly `repeatCount`
reads, and reports no error. -/
theorem c4_full_reads_count_all (script : List ReadRes) (b rc : Nat) (hb : 0 < b)
    (hfull : ∀ k, k < rc → ∃ r, script.get? k = some r ∧ r.data.length = b ∧ r.err = none) :
    getNumOfCharsOnIoFull script rc
        = ((((script.take rc).map ReadRes.data).flatten).count delimByte, none, rc)
      ∧ (((script.take rc).map ReadRes.data).flatten).length = rc * b := by
  constructor
  · have h := scanNormalSteps rc script rc (Nat.le_refl rc)
      (fun k hk => by
        obtain ⟨r, hr, hrb, hre⟩ := hfull k hk
        refine ⟨r, hr, ?_, hre⟩
        rw [← List.length_pos]
        omega)
    rw [h]
    simp [getNumOfCharsOnIoFull]
  · exact join_take_length b rc script
      (fun k hk => by
        obtain ⟨r, hr, hrb, _⟩ := hfull k hk
        exact ⟨r, hr, hrb⟩)

/-- Witness for C4: two full reads of buffer size 2 delivering two
newlines and then "a" plus newline give count 3, no error, 2 reads,
4 delivered bytes. -/
theorem c4_full_reads_count_all_witness :
    (0 < 2)
      ∧ getNumOfCharsOnIoFull [⟨[10, 10], none⟩, ⟨[97, 10], none⟩] 2
          = (((([⟨[10, 10], none⟩, ⟨[97, 10], none⟩] : List ReadRes).take 2).map
              ReadRes.data).flatten.count delimByte, none, 2)
      ∧ (((([⟨[10, 10], none⟩, ⟨[97, 10], none⟩] : List ReadRes).take 2).map
            ReadRes.data).flatten).length = 2 * 2 :=
  ⟨by decide,
    c4_full_reads_count_all [⟨[10, 10], none⟩, ⟨[97, 10], none⟩] 2 2 (by decide)
      (by
        intro k hk
        interval_cases k
        · exact ⟨⟨[10, 10], none⟩, rfl, rfl, rfl⟩
        · exact ⟨⟨[97, 10], none⟩, rfl, rfl, rfl⟩)⟩

/-- C5: if the `j`-th read returns zero bytes (after `j` normal
iterations), the scan stops right there — it performs exactly `j + 1`
reads, no further ones — and returns the count accumulated over the
preceding iterations together with the zero read's own error: the early
stop adds no error of its own, so when that read reports none the
caller sees none. -/
theorem c5_zero_read_stops (script : List ReadRes) (rc j : Nat) (e : Option GoErr)
    (hj : j < rc) (hz : script.get? j = some ⟨[], e⟩)
    (hpre : ∀ k, k < j → ∃ r, script.get? k = some r ∧ r.data ≠ [] ∧ r.err = none) :
    getNumOfCharsOnIoFull script rc
        = (((script.take j).map ReadRes.data).flatten.count delimByte, e, j + 1)
      ∧ (e = none → (getNumOfCharsOnIo script rc).2 = none) := by
  have hjlen : j < script.length := (List.get?_eq_some.mp hz).1
  have hdrop : script.drop j = ⟨[], e⟩ :: script.drop (j + 1) := by
    rw [List.drop_eq_getElem_cons hjlen]
    congr 1
    have h1 := List.get?_eq_getElem? script j
    rw [hz, List.getElem?_eq_getElem hjlen] at h1
    exact Option.some.inj h1.symm
  have h := scanNormalSteps j script rc (by omega) hpre
  obtain ⟨d, hd⟩ : ∃ d, rc - j = d + 1 := ⟨rc - j - 1, by omega⟩
  have hred : getNumOfCharsOnIoFull ((⟨[], e⟩ : ReadRes) :: script.drop (j + 1)) (d + 1)
      = (0, e, 1) := by
    rw [getNumOfCharsOnIoFull]
    simp
  rw [hdrop, hd, hred] at h
  simp only at h
  constructor
  · rw [h]
    simp [Nat.add_comm]
  · intro he
    rw [getNumOfCharsOnIo, h, he]

/-- Witness for C5: reads deliver one newline, then zero bytes with no
error, with a third read planned; the scan returns count 1 after exactly
2 reads and passes the nil error through. -/
theorem c5_zero_read_stops_witness :
    (1 < 3)
      ∧ getNumOfCharsOnIoFull [⟨[10], none⟩, ⟨[], none⟩, ⟨[10], none⟩] 3
          = (((([⟨[10], none⟩, ⟨[], none⟩, ⟨[10], none⟩] : List ReadRes).take 1).map
              ReadRes.data).flatten.count delimByte, none, 1 + 1)
      ∧ (getNumOfCharsOnIo [⟨[10], none⟩, ⟨[], none⟩, ⟨[10], none⟩] 3).2 = none :=
  ⟨by decide,
    (c5_zero_read_stops [⟨[10], none⟩, ⟨[], none⟩, ⟨[10], none⟩] 3 1 none (by decide) rfl
      (by
        intro k hk
        interval_cases k
        exact ⟨⟨[10], none⟩, rfl, by decide, rfl⟩)).1,
    (c5_zero_read_stops [⟨[10], none⟩, ⟨[], none⟩, ⟨[10], none⟩] 3 1 none (by decide) rfl
      (by
        intro k hk
        interval_cases k
        exact ⟨⟨[10], none⟩, rfl, by decide, rfl⟩)).2 rfl⟩

/-- C6: when a read delivers `n > 0` bytes together with a non-nil
error, the scan returns the count accumulated so far with that error,
after exactly `j + 1` reads, and never counts the delimiters delivered
by that same read (the returned count covers only the first `j` chunks). -/
theorem c6_error_read_bytes_uncounted (script : List ReadRes) (rc j : Nat) (r : ReadRes)
    (e : GoErr) (hj : j < rc) (hr : script.get? j = some r) (hd : r.data ≠ [])
    (he : r.err = some e)
    (hpre : ∀ k, k < j → ∃ x, script.get? k = some x ∧ x.data ≠ [] ∧ x.err = none) :
    getNumOfCharsOnIoFull script rc
      = (((script.take j).map ReadRes.data).flatten.count delimByte, some e, j + 1) := by
  have hjlen : j < script.length := (List.get?_eq_some.mp hr).1
  have hdrop : script.drop j = r :: script.drop (j + 1) := by
    rw [List.drop_eq_getElem_cons hjlen]
    congr 1
    have h1 := List.get?_eq_getElem? script j
    rw [hr, List.getElem?_eq_getElem hjlen] at h1
    exact Option.some.inj h1.symm
  have h := scanNormalSteps j script rc (by omega) hpre
  obtain ⟨d, hd'⟩ : ∃ d, rc - j = d + 1 := ⟨rc - j - 1, by omega⟩
  have hlen : ¬r.data.length = 0 := by
    simpa [List.length_eq_zero] using hd
  have hred : getNumOfCharsOnIoFull (r :: script.drop (j + 1)) (d + 1) = (0, some e, 1) := by
    rw [getNumOfCharsOnIoFull]
    simp [hlen, he]
  rw [hdrop, hd', hred] at h
  simp only at h
  rw [h]
  simp [Nat.add_comm]

/-- Witness for C6: the second read delivers two newlines together with
io.EOF; the scan returns only the first chunk's count 1, the error, and
performed 2 reads. -/
theorem c6_error_read_bytes_uncounted_witness :
    (1 < 2)
      ∧ getNumOfCharsOnIoFull [⟨[10], none⟩, ⟨[10, 10], some GoErr.eof⟩] 2
          = (((([⟨[10], none⟩, ⟨[10, 10], some GoErr.eof⟩] : List ReadRes).take 1).map
              ReadRes.data).flatten.count delimByte, some GoErr.eof, 1 + 1) :=
  ⟨by decide,
    c6_error_read_bytes_uncounted [⟨[10], none⟩, ⟨[10, 10], some GoErr.eof⟩] 2 1
      ⟨[10, 10], some GoErr.eof⟩ GoErr.eof (by decide) rfl (by decide) rfl
      (by
        intro k hk
        interval_cases k
        exact ⟨⟨[10], none⟩, rfl, by decide, rfl⟩)⟩

theorem spawnFrom_env_sum (env : Nat → WorkerEnv) (file : List Byte) (rct s b : Nat) :
    ∀ (rem i : Nat),
      ((spawnFrom env file rct s b i (byteOffset rct s b i) rem).map
          fun w => w.emitted.sum).sum
        + ((List.range' i rem).map fun k =>
            if env k = WorkerEnv.ok then 0 else segDelims file rct s b k).sum
      = ((spawnFrom (fun _ => WorkerEnv.ok) file rct s b i (byteOffset rct s b i) rem).map
          fun w => w.emitted.sum).sum
  | 0, i => by simp [spawnFrom]
  | rem + 1, i => by
    rw [spawnFrom, spawnFrom, List.range'_succ]
    simp only [List.map_cons, List.sum_cons]
    have hnext : byteOffset rct s b i + eachReadCount rct s i * b
        = byteOffset rct s b (i + 1) := rfl
    rw [hnext]
    have hrec := spawnFrom_env_sum env file rct s b rem (i + 1)
    have hok : (countWorker WorkerEnv.ok file (eachReadCount rct s i)
        (byteOffset rct s b i) b).emitted.sum = segDelims file rct s b i := by
      simp [countWorker, segDelims]
    cases henv : env i with
    | ok =>
      rw [hok, if_pos rfl]
      omega
    | openFail =>
      have hfail : (countWorker WorkerEnv.openFail file (eachReadCount rct s i)
          (byteOffset rct s b i) b).emitted.sum = 0 := by
        simp [countWorker]
      rw [hfail, if_neg (by simp)]
      omega
    | seekFail =>
      have hfail : (countWorker WorkerEnv.seekFail file (eachReadCount rct s i)
          (byteOffset rct s b i) b).emitted.sum = 0 := by
        simp [countWorker]
      rw [hfail, if_neg (by simp)]
      omega

/-- C7: a worker that fails to open or to seek still emits exactly one
partial result, with count 0 and no read performed; `getNumOfLines`
still reports no error, and its total undercounts the healthy total by
exactly the failed segments' delimiter counts. -/
theorem c7_worker_failure_swallowed (file : List Byte) (s t b : Nat)
    (env : Nat → WorkerEnv) :
    (∀ erc boff, countWorker WorkerEnv.openFail file erc boff b = ⟨[0], false, 0⟩
        ∧ countWorker WorkerEnv.seekFail file erc boff b = ⟨[0], false, 0⟩)
      ∧ (getNumOfLines env (Except.ok file) s t b).err = none
      ∧ (getNumOfLines env (Except.ok file) s t b).total
          + ((List.range s).map fun k =>
              if env k = WorkerEnv.ok then 0
              else segDelims file (readCountTotal file.length b) s b k).sum
          = (getNumOfLines (fun _ => WorkerEnv.ok) (Except.ok file) s t b).total := by
  refine ⟨fun erc boff => ⟨rfl, rfl⟩, rfl, ?_⟩
  have h := spawnFrom_env_sum env file (readCountTotal file.length b) s b s 0
  rw [List.range_eq_range']
  exact h

/-- C8: a top-level open/stat failure is returned to the caller with
total 0 before any work starts: no segment is planned, no worker is
started, and no read is performed. -/
theorem c8_top_level_failure_aborts (e : GoErr) (s t b : Nat) (env : Nat → WorkerEnv) :
    getNumOfLines env (Except.error e) s t b
      = ⟨0, some e, [], 0, 0, false⟩ := rfl

theorem rct_zero (b : Nat) : readCountTotal 0 b = 0 := by
  rw [readCountTotal]
  simp

theorem eachReadCount_zero (s i : Nat) (hi : i < s) : eachReadCount 0 s i = 0 := by
  rw [eachReadCount]
  exact Nat.div_eq_of_lt (by omega)

theorem spawnFrom_length (env : Nat → WorkerEnv) (file : List Byte) (rct s b : Nat) :
    ∀ (rem i off : Nat), (spawnFrom env file rct s b i off rem).length = rem
  | 0, i, off => rfl
  | rem + 1, i, off => by
    rw [spawnFrom]
    simp [spawnFrom_length env file rct s b rem]

/-- C10: for an empty file, `totalReads` is 0, every segment is assigned
0 reads, no read is performed, and the run returns total 0 with no
error. -/
theorem c10_empty_file (s t b : Nat) (hs : 1 ≤ s) (hb : 0 < b) :
    readCountTotal (List.length ([] : List Byte)) b = 0
      ∧ (∀ i, i < s → eachReadCount (readCountTotal 0 b) s i = 0)
      ∧ getNumOfLines (fun _ => WorkerEnv.ok) (Except.ok []) s t b
          = ⟨0, none, segments 0 s b, s, 0, false⟩ := by
  have h0 : readCountTotal 0 b = 0 := rct_zero b
  refine ⟨h0, ?_, ?_⟩
  · intro i hi
    rw [h0]
    exact eachReadCount_zero s i hi
  · have hsum := sumReads_all (readCountTotal 0 b) s hs
    rw [h0] at hsum
    have h := spawnFrom_ok ([] : List Byte) 0 s b hb s 0 0 (by rw [hsum]; left; rfl)
    rw [hsum] at h
    rw [getNumOfLines]
    simp only [List.length_nil, h0]
    rw [RunResult.mk.injEq]
    refine ⟨?_, rfl, rfl, ?_, ?_, ?_⟩
    · rw [h.1]
      simp
    · exact spawnFrom_length _ _ _ _ _ s 0 0
    · rw [h.2.1]
    · exact h.2.2

/-- Witness for C10 at `s = 3`, `t = 2`, `b = 4`. -/
theorem c10_empty_file_witness :
    (1 ≤ 3 ∧ 0 < 4)
      ∧ readCountTotal (List.length ([] : List Byte)) 4 = 0
      ∧ eachReadCount (readCountTotal 0 4) 3 2 = 0
      ∧ getNumOfLines (fun _ => WorkerEnv.ok) (Except.ok []) 3 2 4
          = ⟨0, none, segments 0 3 4, 3, 0, false⟩ :=
  ⟨by decide,
    (c10_empty_file 3 2 4 (by decide) (by decide)).1,
    (c10_empty_file 3 2 4 (by decide) (by decide)).2.1 2 (by decide),
    (c10_empty_file 3 2 4 (by decide) (by decide)).2.2⟩

theorem card_filter_update_eq {s : Nat} (f : Fin s → WPhase) (i : Fin s) (v : WPhase)
    (p : WPhase → Bool) (h : p (f i) = p v) :
    (Finset.univ.filter fun j => p (Function.update f i v j) = true).card
      = (Finset.univ.filter fun j => p (f j) = true).card := by
  congr 1
  apply Finset.filter_congr
  intro j _
  by_cases hj : j = i
  · subst hj
    rw [Function.update_same, h]
  · rw [Function.update_noteq hj]

theorem card_filter_update_pos {s : Nat} (f : Fin s → WPhase) (i : Fin s) (v : WPhase)
    (p : WPhase → Bool) (h0 : p (f i) = false) (h1 : p v = true) :
    (Finset.univ.filter fun j => p (Function.update f i v j) = true).card
      = (Finset.univ.filter fun j => p (f j) = true).card + 1 := by
  have hset : (Finset.univ.filter fun j => p (Function.update f i v j) = true)
      = insert i (Finset.univ.filter fun j => p (f j) = true) := by
    ext j
    simp only [Finset.mem_filter, Finset.mem_univ, true_and, Finset.mem_insert]
    by_cases hj : j = i
    · subst hj
      simp [Function.update_same, h1]
    · simp [Function.update_noteq hj, hj]
  rw [hset, Finset.card_insert_of_not_mem]
  simp [h0]

theorem card_filter_update_neg {s : Nat} (f : Fin s → WPhase) (i : Fin s) (v : WPhase)
    (p : WPhase → Bool) (h0 : p (f i) = true) (h1 : p v = false) :
    (Finset.univ.filter fun j => p (f j) = true).card
      = (Finset.univ.filter fun j => p (Function.update f i v j) = true).card + 1 := by
  have hset : (Finset.univ.filter fun j => p (f j) = true)
      = insert i (Finset.univ.filter fun j => p (Function.update f i v j) = true) := by
    ext j
    simp only [Finset.mem_filter, Finset.mem_univ, true_and, Finset.mem_insert]
    by_cases hj : j = i
    · subst hj
      simp [h0]
    · simp [Function.update_noteq hj, hj]
  rw [hset, Finset.card_insert_of_not_mem]
  simp [Function.update_same, h1]

theorem poolInv_init (s maxT : Nat) : PoolInv s maxT (initState s) := by
  refine ⟨?_, Nat.zero_le _, ?_⟩
  · rw [heldCard]
    simp [initState, isHeld]
  · intro h
    simp [initState] at h

theorem poolInv_step {s maxT : Nat} {st st' : PoolState s}
    (hinv : PoolInv s maxT st) (hstep : PoolStep s maxT st st') :
    PoolInv s maxT st' := by
  obtain ⟨hc, hm, hcol⟩ := hinv
  cases hstep with
  | spawn h hph hjc =>
    refine ⟨?_, ?_, ?_⟩
    · show (Finset.univ.filter fun j =>
          isHeld ((Function.update st.phase ⟨st.nextIdx, h⟩ WPhase.running) j)
            = true).card = st.jcCount + 1
      rw [card_filter_update_pos st.phase ⟨st.nextIdx, h⟩ WPhase.running isHeld
        (by rw [hph]; rfl) rfl]
      rw [show (Finset.univ.filter fun j => isHeld (st.phase j) = true).card
        = heldCard st from rfl, hc]
    · show st.jcCount + 1 ≤ maxT
      omega
    · intro hcol'
      have hall := hcol hcol' ⟨st.nextIdx, h⟩
      rcases hall with h1 | h1 <;> rw [hph] at h1 <;> cases h1
  | closeFile i hrun =>
    refine ⟨?_, hm, ?_⟩
    · show (Finset.univ.filter fun j =>
          isHeld ((Function.update st.phase i WPhase.closed) j) = true).card = st.jcCount
      rw [card_filter_update_eq st.phase i WPhase.closed isHeld (by rw [hrun]; rfl)]
      exact hc
    · intro hcol'
      have hall := hcol hcol' i
      rcases hall with h1 | h1 <;> rw [hrun] at h1 <;> cases h1
  | emit i hclo =>
    refine ⟨?_, hm, ?_⟩
    · show (Finset.univ.filter fun j =>
          isHeld ((Function.update st.phase i WPhase.emitted) j) = true).card = st.jcCount
      rw [card_filter_update_eq st.phase i WPhase.emitted isHeld (by rw [hclo]; rfl)]
      exact hc
    · intro hcol'
      have hall := hcol hcol' i
      rcases hall with h1 | h1 <;> rw [hclo] at h1 <;> cases h1
  | release i hemi =>
    have hcard := card_filter_update_neg st.phase i WPhase.released isHeld
      (by rw [hemi]; rfl) rfl
    refine ⟨?_, ?_, ?_⟩
    · show (Finset.univ.filter fun j =>
          isHeld ((Function.update st.phase i WPhase.released) j) = true).card
        = st.jcCount - 1
      rw [show (Finset.univ.filter fun j => isHeld (st.phase j) = true).card
        = heldCard st from rfl, hc] at hcard
      omega
    · show st.jcCount - 1 ≤ maxT
      omega
    · intro hcol' j
      show Function.update st.phase i WPhase.released j = WPhase.emitted
        ∨ Function.update st.phase i WPhase.released j = WPhase.released
      by_cases hj : j = i
      · subst hj
        right
        exact Function.update_same j WPhase.released st.phase
      · rw [Function.update_noteq hj]
        exact hcol hcol' j
  | finish hall hdone =>
    exact ⟨hc, hm, fun _ => hall⟩

theorem poolInv_reach {s maxT : Nat} {st : PoolState s} (h : PoolReach s maxT st) :
    PoolInv s maxT st := by
  induction h with
  | init => exact poolInv_init s maxT
  | step hr hs ih => exact poolInv_step ih hs

theorem isRunning_imp_isHeld (w : WPhase) (h : isRunning w = true) : isHeld w = true := by
  cases w <;> simp [isRunning, isHeld] at h ⊢

theorem runningCard_le_heldCard {s : Nat} (st : PoolState s) :
    runningCard st ≤ heldCard st := by
  apply Finset.card_le_card
  intro j hj
  rw [Finset.mem_filter] at hj ⊢
  exact ⟨hj.1, isRunning_imp_isHeld (st.phase j) hj.2⟩

theorem step_release_inv {s maxT : Nat} {st st' : PoolState s} (i : Fin s)
    (hstep : PoolStep s maxT st st')
    (h1 : st'.phase i = WPhase.released) (h2 : st.phase i ≠ WPhase.released) :
    st.phase i = WPhase.emitted := by
  cases hstep with
  | spawn h hph hjc =>
    replace h1 : Function.update st.phase ⟨st.nextIdx, h⟩ WPhase.running i
        = WPhase.released := h1
    by_cases hj : i = ⟨st.nextIdx, h⟩
    · subst hj
      rw [Function.update_same] at h1
      cases h1
    · rw [Function.update_noteq hj] at h1
      exact absurd h1 h2
  | closeFile j hrun =>
    replace h1 : Function.update st.phase j WPhase.closed i = WPhase.released := h1
    by_cases hj : i = j
    · subst hj
      rw [Function.update_same] at h1
      cases h1
    · rw [Function.update_noteq hj] at h1
      exact absurd h1 h2
  | emit j hclo =>
    replace h1 : Function.update st.phase j WPhase.emitted i = WPhase.released := h1
    by_cases hj : i = j
    · subst hj
      rw [Function.update_same] at h1
      cases h1
    · rw [Function.update_noteq hj] at h1
      exact absurd h1 h2
  | release j hemi =>
    replace h1 : Function.update st.phase j WPhase.released i = WPhase.released := h1
    by_cases hj : i = j
    · subst hj
      exact hemi
    · rw [Function.update_noteq hj] at h1
      exact absurd h1 h2
  | finish hall hdone =>
    exact absurd h1 h2

theorem step_emit_inv {s maxT : Nat} {st st' : PoolState s} (i : Fin s)
    (hstep : PoolStep s maxT st st')
    (h1 : st'.phase i = WPhase.emitted) (h2 : st.phase i ≠ WPhase.emitted) :
    st.phase i = WPhase.closed := by
  cases hstep with
  | spawn h hph hjc =>
    replace h1 : Function.update st.phase ⟨st.nextIdx, h⟩ WPhase.running i
        = WPhase.emitted := h1
    by_cases hj : i = ⟨st.nextIdx, h⟩
    · subst hj
      rw [Function.update_same] at h1
      cases h1
    · rw [Function.update_noteq hj] at h1
      exact absurd h1 h2
  | closeFile j hrun =>
    replace h1 : Function.update st.phase j WPhase.closed i = WPhase.emitted := h1
    by_cases hj : i = j
    · subst hj
      rw [Function.update_same] at h1
      cases h1
    · rw [Function.update_noteq hj] at h1
      exact absurd h1 h2
  | emit j hclo =>
    replace h1 : Function.update st.phase j WPhase.emitted i = WPhase.emitted := h1
    by_cases hj : i = j
    · subst hj
      exact hclo
    · rw [Function.update_noteq hj] at h1
      exact absurd h1 h2
  | release j hemi =>
    replace h1 : Function.update st.phase j WPhase.released i = WPhase.emitted := h1
    by_cases hj : i = j
    · subst hj
      rw [Function.update_same] at h1
      cases h1
    · rw [Function.update_noteq hj] at h1
      exact absurd h1 h2
  | finish hall hdone =>
    exact absurd h1 h2

/-- C9: in every reachable state, at most `maxThreads` segment scans run
simultaneously (and at most `maxThreads` slots — hence open handles and
live buffers — are held), regardless of the number of segments; the
total is only collected once every worker has emitted its result; a
slot release can only happen for a worker that has already emitted, and
an emit only for a worker that has already closed its handle. -/
theorem c9_bounded_concurrency (s maxT : Nat) (st : PoolState s)
    (h : PoolReach s maxT st) :
    runningCard st ≤ maxT
      ∧ heldCard st ≤ maxT
      ∧ (st.collected = true →
          ∀ i, st.phase i = WPhase.emitted ∨ st.phase i = WPhase.released)
      ∧ (∀ (st' : PoolState s) (i : Fin s), PoolStep s maxT st st' →
          st'.phase i = WPhase.released → st.phase i ≠ WPhase.released →
          st.phase i = WPhase.emitted)
      ∧ (∀ (st' : PoolState s) (i : Fin s), PoolStep s maxT st st' →
          st'.phase i = WPhase.emitted → st.phase i ≠ WPhase.emitted →
          st.phase i = WPhase.closed) := by
  obtain ⟨hc, hm, hcol⟩ := poolInv_reach h
  have hrh := runningCard_le_heldCard st
  refine ⟨by omega, by omega, hcol, ?_, ?_⟩
  · intro st' i hstep h1 h2
    exact step_release_inv i hstep h1 h2
  · intro st' i hstep h1 h2
    exact step_emit_inv i hstep h1 h2

/-- Witness for C9: with 2 segments and `maxThreads = 1`, the state
after spawning the first worker is reachable and has exactly one
running scan, within the bound. -/
theorem c9_bounded_concurrency_witness :
    runningCard (⟨Function.update (fun _ => WPhase.notStarted) (⟨0, by decide⟩ : Fin 2)
        WPhase.running, 1, 1, false⟩ : PoolState 2) ≤ 1
      ∧ heldCard (⟨Function.update (fun _ => WPhase.notStarted) (⟨0, by decide⟩ : Fin 2)
          WPhase.running, 1, 1, false⟩ : PoolState 2) ≤ 1 := by
  have hreach : PoolReach 2 1 (⟨Function.update (fun _ => WPhase.notStarted)
      (⟨0, by decide⟩ : Fin 2) WPhase.running, 1, 1, false⟩ : PoolState 2) :=
    PoolReach.step PoolReach.init
      (PoolStep.spawn (initState 2) (by decide) rfl (by decide))
  have h := c9_bounded_concurrency 2 1 _ hreach
  exact ⟨h.1, h.2.1⟩

end GoLc
